import Mathlib

/-!
Verification of the dispatcher-elimination script `scripts/rename_cursor_functions.py`.

A document (Python `content : str`) is modelled as a `List Char`; it is split into
lines on the newline character exactly as Python's `str.split('\n')` does.  The
three core functions `find_dispatchers`, `remove_dispatchers` and
`rename_cursor_functions` are translated line by line from the source.  The two
regular expressions of the scanner and the one of the rewriter are translated into
explicit character-list scans whose equivalence with Python's backtracking
semantics is argued in the comment next to each definition.
-/

/-- Whitespace in Python's `str.strip()` and regex class `\s` (ASCII range). -/
def isPySpace (c : Char) : Bool :=
  c = ' ' || c = '\t' || c = '\n' || c = '\r' || c = '\x0b' || c = '\x0c'

/-- Word character of Python's regex class `\w` (ASCII range). -/
def isWordChar (c : Char) : Bool :=
  c.isAlphanum || c = '_'

/-- Models `not line.strip()`: the line consists of whitespace only. -/
def isBlank (l : List Char) : Bool := l.all isPySpace

/-- Models Python's `line.strip()`. -/
def pyStrip (l : List Char) : List Char :=
  ((l.dropWhile isPySpace).reverse.dropWhile isPySpace).reverse

/-- Models `content.split('\n')`.  Python's split never returns an empty list:
splitting the empty string yields `[""]`. -/
def splitLines : List Char → List (List Char)
  | [] => [[]]
  | c :: cs =>
    if c = '\n' then [] :: splitLines cs
    else
      match splitLines cs with
      | [] => [[c]]
      | l :: ls => (c :: l) :: ls

/-- Models `'\n'.join(lines)`. -/
def joinLines : List (List Char) → List Char
  | [] => []
  | [l] => l
  | l :: ls => l ++ '\n' :: joinLines ls

/-- Models `lines[i]`; every use in the script is guarded by `i < len(lines)`,
so the default value is never returned on the script's executions. -/
def lineAt (L : List (List Char)) (i : Nat) : List Char := L.getD i []

/-- The captures of the function-header regex
`^func \(p \*Parser\) (parse\w+)\((.*?)\)(.*?)\{`. -/
structure FuncHeader where
  name : List Char
  params : List Char
  retType : List Char
deriving DecidableEq, Repr

/-- One entry of the `dispatchers` list built by `find_dispatchers`
(the Python dict with keys name, cursor_name, start_line, end_line,
params, return_type). -/
structure Dispatcher where
  name : List Char
  cursor_name : List Char
  start_line : Nat
  end_line : Nat
  params : List Char
  return_type : List Char
deriving DecidableEq, Repr

/-- The literal part of the header regex: `func \(p \*Parser\) parse`. -/
def headerStart : List Char := "func (p *Parser) parse".data

/-- Backtracking of `\((.*?)\)(.*?)\{` applied to the text after the opening
parenthesis: group 2 ends at the first `)` that still has a `{` somewhere after
it, and group 3 is the text between that `)` and the first following `{`.
If the first `)` has no later `{` then no later `)` has one either, so the
whole match fails. -/
def splitAtParen : List Char → Option (List Char × List Char)
  | [] => none
  | c :: cs =>
    if c = ')' then
      if cs.contains '\x7b' then some ([], cs.takeWhile (fun ch => !(ch == '\x7b')))
      else none
    else (splitAtParen cs).map (fun p => (c :: p.1, p.2))

/-- Models `re.match(r'^func \(p \*Parser\) (parse\w+)\((.*?)\)(.*?)\{', line)`.
The greedy `\w+` inside group 1 must be followed by the literal `(`; since `(`
is not a word character, the group is exactly the maximal word-character run
after `parse`, and that run must be nonempty with `(` immediately after it. -/
def matchFuncHeader (line : List Char) : Option FuncHeader :=
  if line.take headerStart.length = headerStart then
    if (line.drop headerStart.length).takeWhile isWordChar = [] then none
    else
      match (line.drop headerStart.length).dropWhile isWordChar with
      | [] => none
      | c :: s =>
        if c = '(' then
          match splitAtParen s with
          | some (g2, g3) =>
            some ⟨"parse".data ++ (line.drop headerStart.length).takeWhile isWordChar,
                  g2, pyStrip g3⟩
          | none => none
        else none
  else none

/-- The literal part of the forwarding regex: `return p\.`. -/
def retHead : List Char := "return p.".data

/-- Models `re.match(r'\s*return p\.(\w+Cursor)\(', line)`, returning group 1.
The greedy `\w+Cursor` followed by `(` matches exactly when the maximal
word-character run after `return p.` ends in `Cursor`, has something before
that suffix (`\w+` needs one character, so length at least 7), and is
immediately followed by `(`. -/
def matchReturnCursor (line : List Char) : Option (List Char) :=
  if (line.dropWhile isPySpace).take retHead.length = retHead then
    match ((line.dropWhile isPySpace).drop retHead.length).takeWhile isWordChar,
          ((line.dropWhile isPySpace).drop retHead.length).dropWhile isWordChar with
    | _, [] => none
    | w, c :: _ =>
      if c = '(' ∧ 7 ≤ w.length ∧ "Cursor".data.isSuffixOf w = true then some w
      else none
  else none

/-- Models the loop `while j < len(lines) and not lines[j].strip(): j += 1`:
the first index at or after `j` whose line is not blank (or `len(lines)`). -/
def skipBlanks (L : List (List Char)) (j : Nat) : Nat :=
  j + ((L.drop j).takeWhile isBlank).length

/-- The closing-brace line content compared against by the scanner. -/
def closeBrace : List Char := ['\x7d']

/-- Models the loop `while k < len(lines) and lines[k].strip() != '}': k += 1`. -/
def findBrace (L : List (List Char)) (k : Nat) : Nat :=
  k + ((L.drop k).takeWhile (fun l => !(pyStrip l == closeBrace))).length

/-- One iteration of the scanner's `while` loop at index `i`: the record it
appends there, if any.  Mirrors lines 24-56 of the script. -/
def scanAt (L : List (List Char)) (i : Nat) : Option Dispatcher :=
  match matchFuncHeader (lineAt L i) with
  | none => none
  | some hdr =>
    if skipBlanks L (i + 1) < L.length then
      match matchReturnCursor (lineAt L (skipBlanks L (i + 1))) with
      | none => none
      | some cf =>
        if cf = hdr.name ++ "Cursor".data then
          if findBrace L (skipBlanks L (i + 1) + 1) < L.length then
            some { name := hdr.name, cursor_name := cf, start_line := i,
                   end_line := findBrace L (skipBlanks L (i + 1) + 1),
                   params := hdr.params, return_type := hdr.retType }
          else none
        else none
    else none

/-- The scanner's `while i < len(lines)` loop from index `i`.  On a recorded
dispatcher the loop sets `i = k` and then `i += 1`, i.e. it continues at
`end_line + 1`; otherwise it continues at `i + 1`.  The index strictly
increases on every iteration, so `fuel = len(lines) + 1` (as supplied by
`find_dispatchers`) is more than the loop can ever consume and the fuel-free
Python loop and this function agree. -/
def findFrom (L : List (List Char)) : Nat → Nat → List Dispatcher
  | 0, _ => []
  | fuel + 1, i =>
    if i < L.length then
      match scanAt L i with
      | some d => d :: findFrom L fuel (d.end_line + 1)
      | none => findFrom L fuel (i + 1)
    else []

/-- Models `find_dispatchers(content)`. -/
def find_dispatchers (content : List Char) : List Dispatcher :=
  findFrom (splitLines content) ((splitLines content).length + 1) 0

/-- Models the backward extension loop
`while start > 0 and not lines[start - 1].strip(): start -= 1`. -/
def extendStart (L : List (List Char)) : Nat → Nat
  | 0 => 0
  | s + 1 => if isBlank (lineAt L s) then extendStart L s else s + 1

/-- The deletion start actually used for a record: the backward extension,
then `if start > 0: start += 1` (lines 75-78 of the script). -/
def adjStartOf (L : List (List Char)) (d : Dispatcher) : Nat :=
  if 0 < extendStart L d.start_line then extendStart L d.start_line + 1
  else extendStart L d.start_line

/-- Models `del lines[a:b]` (for nonnegative indices): Python removes the
indices in `[a, b)`, which is empty when `b ≤ a`. -/
def delSlice (lines : List (List Char)) (a b : Nat) : List (List Char) :=
  lines.take a ++ lines.drop (max a b)

/-- The body of the `for dispatcher in dispatchers_sorted` loop. -/
def removeOne (lines : List (List Char)) (d : Dispatcher) : List (List Char) :=
  delSlice lines (adjStartOf lines d) (d.end_line + 1)

/-- Stable insertion for descending `start_line` order: an element is placed
after all existing elements with a greater-or-equal key, exactly the order of
Python's stable `sorted(..., key=lambda d: d['start_line'], reverse=True)`
(equal keys keep their original relative order). -/
def insertDesc (d : Dispatcher) : List Dispatcher → List Dispatcher
  | [] => [d]
  | e :: es =>
    if d.start_line ≤ e.start_line then e :: insertDesc d es
    else d :: e :: es

/-- Models `sorted(dispatchers, key=lambda d: d['start_line'], reverse=True)`.
Any stable sort gives the same list, so insertion sort is a faithful model of
Python's stable sort. -/
def sortDesc (ds : List Dispatcher) : List Dispatcher :=
  ds.foldl (fun acc d => insertDesc d acc) []

/-- Models `remove_dispatchers(content, dispatchers)`. -/
def remove_dispatchers (content : List Char) (dispatchers : List Dispatcher) : List Char :=
  joinLines (List.foldl removeOne (splitLines content) (sortDesc dispatchers))

/-- The search pattern of the rewriter's `re.sub` for one cursor name:
`\bfunc \(p \*Parser\) <cursor_name>\(`.  Scanner-produced cursor names consist
of word characters only, so the name inserted into the regex is matched
literally. -/
def headerPat (cursor : List Char) : List Char :=
  "func (p *Parser) ".data ++ cursor ++ ['(']

/-- The replacement text `func (p *Parser) {base_name}(` where
`base_name = cursor_name[:-6]` (all but the last six characters, and the
empty string when the name has at most six). -/
def headerRep (cursor : List Char) : List Char :=
  "func (p *Parser) ".data ++ cursor.take (cursor.length - 6) ++ ['(']

/-- Left-to-right scan of `re.sub` with the word-boundary `\b` before the
pattern: a match site requires the previous character (tracked in `prevWord`)
not to be a word character, since the pattern starts with the word character
`f`.  After a match the scan resumes past the matched text, whose last
character `(` is not a word character.  Every step consumes at least one
character of `s`, so `fuel = s.length` (as supplied by `subHeader`) suffices
and the fuel is never exhausted before `s` is. -/
def subHeaderAux (pat rep : List Char) : Nat → Bool → List Char → List Char
  | 0, _, s => s
  | fuel + 1, prevWord, s =>
    match s with
    | [] => []
    | c :: cs =>
      if !prevWord && pat.isPrefixOf (c :: cs) then
        rep ++ subHeaderAux pat rep fuel false ((c :: cs).drop pat.length)
      else c :: subHeaderAux pat rep fuel (isWordChar c) cs

/-- Models `re.sub(r'\bfunc \(p \*Parser\) ' + cursor_name + r'\(', ..., line)`. -/
def subHeader (pat rep line : List Char) : List Char :=
  subHeaderAux pat rep line.length false line

/-- First-occurrence deduplication, modelling the Python set
`{d['cursor_name'] for d in dispatchers}` (iteration order of a set is
unspecified; the claims do not depend on it). -/
def dedupAcc (seen : List (List Char)) : List (List Char) → List (List Char)
  | [] => []
  | x :: xs =>
    if seen.contains x then dedupAcc seen xs
    else x :: dedupAcc (x :: seen) xs

/-- Models `cursor_names = {d['cursor_name'] for d in dispatchers}`. -/
def cursorNames (dispatchers : List Dispatcher) : List (List Char) :=
  dedupAcc [] (dispatchers.map (fun d => d.cursor_name))

/-- The transformation of one line by the rewriter's inner
`for cursor_name in cursor_names` loop. -/
def renameLine (names : List (List Char)) (line : List Char) : List Char :=
  names.foldl (fun l c => subHeader (headerPat c) (headerRep c) l) line

/-- Models `rename_cursor_functions(content, dispatchers)`. -/
def rename_cursor_functions (content : List Char) (dispatchers : List Dispatcher) : List Char :=
  joinLines ((splitLines content).map (renameLine (cursorNames dispatchers)))

/-- The pure content transformation of `process_file` (lines 117-132 of the
script, without the file I/O): find the dispatchers, remove them, then rename
the cursor functions. -/
def process_content (content : List Char) : List Char :=
  rename_cursor_functions (remove_dispatchers content (find_dispatchers content))
    (find_dispatchers content)

/-- Substring occurrence test (no word-boundary condition): does `pat` occur
contiguously anywhere in the line? -/
def occursIn (pat : List Char) : List Char → Bool
  | [] => pat.isEmpty
  | c :: cs => pat.isPrefixOf (c :: cs) || occursIn pat cs

/-- Index-aware filter: keep the elements whose absolute index (starting at
`i`) satisfies `p`. -/
def filterIdx {α : Type} (p : Nat → Bool) : Nat → List α → List α
  | _, [] => []
  | i, x :: xs => if p i then x :: filterIdx p (i + 1) xs else filterIdx p (i + 1) xs

/-- A line index survives the eliminator when it lies in no record's deleted
range `[adjStartOf, end_line]` (ranges taken over the original numbering). -/
def keepLine (L : List (List Char)) (D : List Dispatcher) (i : Nat) : Bool :=
  D.all (fun d => decide (i < adjStartOf L d) || decide (d.end_line < i))

/-- Modelled from the spec: the recommended single forward pass of section 9 of
the design ("build a new output sequence by a single forward pass that copies
unreferenced lines and skips recorded spans"), with the spans taken over the
original, pre-edit line numbering. -/
def spec_forward_removal (content : List Char) (D : List Dispatcher) : List Char :=
  joinLines (filterIdx (keepLine (splitLines content) D) 0 (splitLines content))

/-! ### Elementary facts about the line-level helpers -/

theorem lineAt_mem {L : List (List Char)} {i : Nat} (h : i < L.length) : lineAt L i ∈ L := by
  induction L generalizing i with
  | nil => simp at h
  | cons a l ih =>
    cases i with
    | zero => simp [lineAt]
    | succ n =>
      have hn : n < l.length := by simpa using Nat.lt_of_succ_lt_succ h
      simp only [lineAt, List.getD_cons_succ]
      exact List.mem_cons_of_mem a (ih hn)

theorem lineAt_drop : ∀ (L : List (List Char)) (k t : Nat), lineAt (L.drop k) t = lineAt L (k + t)
  | [], k, t => by simp [lineAt]
  | a :: l, 0, t => by simp [lineAt]
  | a :: l, k + 1, t => by
    have : k + 1 + t = (k + t) + 1 := by omega
    rw [List.drop_succ_cons, lineAt_drop l k t, this]
    simp [lineAt, List.getD_cons_succ]

theorem takeWhile_stop {α : Type} (d : α) (p : α → Bool) :
    ∀ M : List α, (M.takeWhile p).length < M.length →
      p (M.getD (M.takeWhile p).length d) = false := by
  intro M
  induction M with
  | nil => intro h; simp at h
  | cons a l ih =>
    intro h
    cases hp : p a with
    | true =>
      rw [List.takeWhile_cons_of_pos hp] at h ⊢
      simp only [List.length_cons] at h ⊢
      rw [List.getD_cons_succ]
      exact ih (Nat.lt_of_succ_lt_succ h)
    | false =>
      rw [List.takeWhile_cons_of_neg (by simp [hp])]
      simpa [lineAt] using hp

theorem skipBlanks_ge (L : List (List Char)) (j : Nat) : j ≤ skipBlanks L j :=
  Nat.le_add_right j _

theorem findBrace_ge (L : List (List Char)) (k : Nat) : k ≤ findBrace L k :=
  Nat.le_add_right k _

theorem findBrace_strip (L : List (List Char)) (k : Nat) (h : findBrace L k < L.length) :
    pyStrip (lineAt L (findBrace L k)) = closeBrace := by
  unfold findBrace at h ⊢
  rw [← lineAt_drop]
  have hlen : ((L.drop k).takeWhile (fun l => !(pyStrip l == closeBrace))).length
      < (L.drop k).length := by
    rw [List.length_drop]
    omega
  have hstop := takeWhile_stop ([] : List Char)
    (fun l => !(pyStrip l == closeBrace)) (L.drop k) hlen
  simpa [lineAt] using hstop

theorem pyStrip_eq_nil_of_isBlank {l : List Char} (h : isBlank l = true) : pyStrip l = [] := by
  have hall : ∀ x ∈ l, isPySpace x = true := List.all_eq_true.mp h
  have h1 : l.dropWhile isPySpace = [] := List.dropWhile_eq_nil_iff.mpr hall
  simp [pyStrip, h1]

theorem isBlank_false_of_strip_brace {l : List Char} (h : pyStrip l = closeBrace) :
    isBlank l = false := by
  cases hb : isBlank l with
  | false => rfl
  | true =>
    rw [pyStrip_eq_nil_of_isBlank hb] at h
    simp [closeBrace] at h

/-! ### Facts about the backward blank extension -/

theorem extendStart_le (L : List (List Char)) : ∀ s, extendStart L s ≤ s
  | 0 => Nat.le_refl 0
  | s + 1 => by
    unfold extendStart
    split
    · exact Nat.le_succ_of_le (extendStart_le L s)
    · exact Nat.le_refl _

theorem extendStart_gt_of_nonblank (L : List (List Char)) (b : Nat)
    (hb : isBlank (lineAt L b) = false) : ∀ s, b < s → b + 1 ≤ extendStart L s
  | 0, h => absurd h (Nat.not_lt_zero b)
  | s + 1, h => by
    unfold extendStart
    split
    next hbl =>
      rcases Nat.lt_or_ge b s with h2 | h2
      · exact extendStart_gt_of_nonblank L b hb s h2
      · have hbs : b = s := by omega
        rw [hbs] at hb
        rw [hb] at hbl
        cases hbl
    next => omega

theorem extendStart_congr (L M : List (List Char)) :
    ∀ s, (∀ t, t < s → lineAt M t = lineAt L t) → extendStart M s = extendStart L s
  | 0, _ => rfl
  | s + 1, h => by
    unfold extendStart
    rw [h s (Nat.lt_succ_self s)]
    split
    · exact extendStart_congr L M s (fun t ht => h t (Nat.lt_succ_of_lt ht))
    · rfl

theorem extendStart_run (L : List (List Char)) (b : Nat)
    (hnb : b = 0 ∨ isBlank (lineAt L (b - 1)) = false) :
    ∀ s, b ≤ s → (∀ t, t < s → b ≤ t → isBlank (lineAt L t) = true) →
      extendStart L s = b
  | 0, hb, _ => by
    have : b = 0 := Nat.le_zero.mp hb
    simp [extendStart, this]
  | s + 1, hb, hrun => by
    unfold extendStart
    rcases Nat.lt_or_ge s b with h2 | h2
    · have hbs : b = s + 1 := by omega
      have hsnb : isBlank (lineAt L s) = false := by
        rcases hnb with h0 | h0
        · omega
        · rw [hbs] at h0; simpa using h0
      rw [hsnb]
      simp [hbs]
    · rw [hrun s (Nat.lt_succ_self s) h2]
      simp only [if_true]
      exact extendStart_run L b hnb s h2 (fun t ht hbt => hrun t (Nat.lt_succ_of_lt ht) hbt)

/-! ### Splitting and joining lines -/

theorem splitLines_ne_nil (s : List Char) : splitLines s ≠ [] := by
  induction s with
  | nil => simp [splitLines]
  | cons c cs ih =>
    unfold splitLines
    split
    · simp
    · cases h : splitLines cs <;> simp [h]

theorem joinLines_splitLines (s : List Char) : joinLines (splitLines s) = s := by
  induction s with
  | nil => rfl
  | cons c cs ih =>
    unfold splitLines
    split
    next hc =>
      cases h : splitLines cs with
      | nil => exact absurd h (splitLines_ne_nil cs)
      | cons l ls =>
        rw [h] at ih
        show '\n' :: joinLines (l :: ls) = c :: cs
        rw [ih, hc]
    next hc =>
      cases h : splitLines cs with
      | nil => exact absurd h (splitLines_ne_nil cs)
      | cons l ls =>
        rw [h] at ih
        cases ls with
        | nil =>
          show c :: l = c :: cs
          rw [show l = cs from ih]
        | cons l2 ls2 =>
          show c :: (l ++ '\n' :: joinLines (l2 :: ls2)) = c :: cs
          rw [show l ++ '\n' :: joinLines (l2 :: ls2) = cs from ih]

theorem splitLines_of_no_newline (l : List Char) (h : ∀ c ∈ l, c ≠ '\n') :
    splitLines l = [l] := by
  induction l with
  | nil => rfl
  | cons c cs ih =>
    unfold splitLines
    rw [if_neg (h c (List.mem_cons_self c cs))]
    rw [ih (fun x hx => h x (List.mem_cons_of_mem c hx))]

theorem splitLines_append (l t : List Char) (h : ∀ c ∈ l, c ≠ '\n') :
    splitLines (l ++ '\n' :: t) = l :: splitLines t := by
  induction l with
  | nil => simp [splitLines]
  | cons c cs ih =>
    rw [List.cons_append]
    show (if c = '\n' then [] :: splitLines (cs ++ '\n' :: t)
      else match splitLines (cs ++ '\n' :: t) with
        | [] => [[c]]
        | l :: ls => (c :: l) :: ls) = (c :: cs) :: splitLines t
    rw [ih (fun x hx => h x (List.mem_cons_of_mem c hx))]
    rw [if_neg (h c (List.mem_cons_self c cs))]

theorem splitLines_joinLines : ∀ M : List (List Char), M ≠ [] →
    (∀ l ∈ M, ∀ c ∈ l, c ≠ '\n') → splitLines (joinLines M) = M
  | [], h, _ => absurd rfl h
  | [l], _, hnl => by
    show splitLines l = [l]
    exact splitLines_of_no_newline l (hnl l (by simp))
  | l :: l2 :: ls, _, hnl => by
    show splitLines (l ++ '\n' :: joinLines (l2 :: ls)) = l :: l2 :: ls
    rw [splitLines_append l _ (hnl l (by simp))]
    rw [splitLines_joinLines (l2 :: ls) (by simp)
      (fun x hx => hnl x (List.mem_cons_of_mem l hx))]

theorem splitLines_no_newline (s : List Char) :
    ∀ l ∈ splitLines s, ∀ c ∈ l, c ≠ '\n' := by
  induction s with
  | nil =>
    intro l hl c hc
    simp [splitLines] at hl
    subst hl
    simp at hc
  | cons a as ih =>
    intro l hl c hc
    unfold splitLines at hl
    by_cases ha : a = '\n'
    · rw [if_pos ha] at hl
      rcases List.mem_cons.mp hl with rfl | h
      · simp at hc
      · exact ih l h c hc
    · rw [if_neg ha] at hl
      cases hsp : splitLines as with
      | nil => exact absurd hsp (splitLines_ne_nil as)
      | cons m ms =>
        rw [hsp] at hl
        rcases List.mem_cons.mp hl with rfl | h
        · rcases List.mem_cons.mp hc with rfl | hcm
          · exact ha
          · exact ih m (hsp ▸ List.mem_cons_self m ms) c hcm
        · exact ih l (hsp ▸ List.mem_cons_of_mem m h) c hc

/-! ### Soundness of the scanner -/

/-- The facts the scanner establishes about every record it appends. -/
structure RecOK (L : List (List Char)) (d : Dispatcher) : Prop where
  header : matchFuncHeader (lineAt L d.start_line) = some ⟨d.name, d.params, d.return_type⟩
  cursorEq : d.cursor_name = d.name ++ "Cursor".data
  jlt : skipBlanks L (d.start_line + 1) < L.length
  retMatch : matchReturnCursor (lineAt L (skipBlanks L (d.start_line + 1))) = some d.cursor_name
  endEq : d.end_line = findBrace L (skipBlanks L (d.start_line + 1) + 1)
  startLtEnd : d.start_line < d.end_line
  startBound : d.start_line < L.length
  endBound : d.end_line < L.length

theorem scanAt_sound (L : List (List Char)) (i : Nat) (d : Dispatcher)
    (hi : i < L.length) (h : scanAt L i = some d) :
    d.start_line = i ∧ RecOK L d := by
  unfold scanAt at h
  split at h
  next => cases h
  next hdr hm =>
    split at h
    next hj =>
      split at h
      next => cases h
      next cf hr =>
        split at h
        next hcf =>
          split at h
          next hk =>
            injection h with h2
            subst h2
            have hj1 : i + 1 ≤ skipBlanks L (i + 1) := skipBlanks_ge L (i + 1)
            have hk1 : skipBlanks L (i + 1) + 1 ≤ findBrace L (skipBlanks L (i + 1) + 1) :=
              findBrace_ge L (skipBlanks L (i + 1) + 1)
            refine ⟨rfl, ?_, ?_, hj, ?_, rfl, ?_, hi, hk⟩
            · simpa using hm
            · simpa using hcf
            · exact hr
            · show i < findBrace L (skipBlanks L (i + 1) + 1)
              omega
          next => cases h
        next => cases h
    next => cases h

theorem findFrom_sound (L : List (List Char)) :
    ∀ fuel i d, d ∈ findFrom L fuel i → i ≤ d.start_line ∧ RecOK L d
  | 0, i, d, h => by simp [findFrom] at h
  | fuel + 1, i, d, h => by
    unfold findFrom at h
    split at h
    next hi =>
      split at h
      next d0 hs =>
        rcases List.mem_cons.mp h with rfl | h2
        · obtain ⟨hstart, hok⟩ := scanAt_sound L i d hi hs
          exact ⟨Nat.le_of_eq hstart.symm, hok⟩
        · obtain ⟨hstart0, hok0⟩ := scanAt_sound L i d0 hi hs
          obtain ⟨hge, hok⟩ := findFrom_sound L fuel (d0.end_line + 1) d h2
          refine ⟨?_, hok⟩
          have := hok0.startLtEnd
          omega
      next hs => 
        obtain ⟨hge, hok⟩ := findFrom_sound L fuel (i + 1) d h
        exact ⟨by omega, hok⟩
    next => simp at h

theorem findFrom_pairwise (L : List (List Char)) :
    ∀ fuel i, List.Pairwise (fun a b => a.end_line < b.start_line) (findFrom L fuel i)
  | 0, _ => by simp [findFrom]
  | fuel + 1, i => by
    unfold findFrom
    split
    next hi =>
      split
      next d0 hs =>
        refine List.pairwise_cons.mpr ⟨?_, findFrom_pairwise L fuel (d0.end_line + 1)⟩
        intro b hb
        have hb1 := (findFrom_sound L fuel (d0.end_line + 1) b hb).1
        omega
      next hs => exact findFrom_pairwise L fuel (i + 1)
    next => simp

theorem findFrom_none (L : List (List Char)) (hL : ∀ l ∈ L, matchFuncHeader l = none) :
    ∀ fuel i, findFrom L fuel i = []
  | 0, _ => rfl
  | fuel + 1, i => by
    unfold findFrom
    split
    next hi =>
      have hnone : scanAt L i = none := by
        unfold scanAt
        rw [hL (lineAt L i) (lineAt_mem hi)]
      rw [hnone]
      exact findFrom_none L hL fuel (i + 1)
    next => rfl


/-! ### Index-aware filtering -/

theorem filterIdx_append {α : Type} (p : Nat → Bool) (xs : List α) :
    ∀ (ys : List α) (i : Nat),
      filterIdx p i (xs ++ ys) = filterIdx p i xs ++ filterIdx p (i + xs.length) ys := by
  induction xs with
  | nil => intro ys i; simp [filterIdx]
  | cons x xs ih =>
    intro ys i
    show filterIdx p i (x :: (xs ++ ys))
      = filterIdx p i (x :: xs) ++ filterIdx p (i + (x :: xs).length) ys
    simp only [filterIdx, List.length_cons]
    rw [ih ys (i + 1)]
    rw [show i + (xs.length + 1) = i + 1 + xs.length from by omega]
    cases hp : p i <;> simp

theorem filterIdx_true {α : Type} (p : Nat → Bool) (xs : List α) :
    ∀ i : Nat, (∀ t, t < xs.length → p (i + t) = true) → filterIdx p i xs = xs := by
  induction xs with
  | nil => intro i _; rfl
  | cons x xs ih =>
    intro i h
    have h0 : p i = true := by simpa using h 0 (by simp)
    have hrec := ih (i + 1) (fun t ht => by
      have hh := h (t + 1) (by simp only [List.length_cons]; omega)
      rwa [show i + (t + 1) = i + 1 + t from by omega] at hh)
    simp [filterIdx, h0, hrec]

theorem filterIdx_false {α : Type} (p : Nat → Bool) (xs : List α) :
    ∀ i : Nat, (∀ t, t < xs.length → p (i + t) = false) → filterIdx p i xs = [] := by
  induction xs with
  | nil => intro i _; rfl
  | cons x xs ih =>
    intro i h
    have h0 : p i = false := by simpa using h 0 (by simp)
    have hrec := ih (i + 1) (fun t ht => by
      have hh := h (t + 1) (by simp only [List.length_cons]; omega)
      rwa [show i + (t + 1) = i + 1 + t from by omega] at hh)
    simp [filterIdx, h0, hrec]

theorem filterIdx_congr {α : Type} (p q : Nat → Bool) (xs : List α) :
    ∀ i : Nat, (∀ t, t < xs.length → p (i + t) = q (i + t)) →
      filterIdx p i xs = filterIdx q i xs := by
  induction xs with
  | nil => intro i _; rfl
  | cons x xs ih =>
    intro i h
    have h0 : p i = q i := by simpa using h 0 (by simp)
    have hrec := ih (i + 1) (fun t ht => by
      have hh := h (t + 1) (by simp only [List.length_cons]; omega)
      rwa [show i + (t + 1) = i + 1 + t from by omega] at hh)
    simp [filterIdx, h0, hrec]

theorem filterIdx_split {α : Type} (p : Nat → Bool) (L : List α) (m : Nat) :
    filterIdx p 0 L
      = filterIdx p 0 (L.take m) ++ filterIdx p (0 + (L.take m).length) (L.drop m) := by
  rw [← filterIdx_append]
  rw [List.take_append_drop]

theorem take_decomp {α : Type} (L : List α) (a m : Nat) (h : a ≤ m) :
    L.take m = L.take a ++ (L.take m).drop a := by
  conv_lhs => rw [← List.take_append_drop a (L.take m)]
  rw [List.take_take, Nat.min_eq_left h]

theorem lineAt_append_left : ∀ (xs ys : List (List Char)) (t : Nat), t < xs.length →
    lineAt (xs ++ ys) t = lineAt xs t
  | [], _, t, h => by simp at h
  | x :: xs, ys, 0, _ => rfl
  | x :: xs, ys, t + 1, h => by
    simp only [List.cons_append, lineAt, List.getD_cons_succ]
    exact lineAt_append_left xs ys t (by simp only [List.length_cons] at h; omega)

theorem lineAt_take : ∀ (L : List (List Char)) (m t : Nat), t < m →
    lineAt (L.take m) t = lineAt L t
  | [], m, t, h => by simp [lineAt]
  | x :: L, m + 1, 0, h => rfl
  | x :: L, m + 1, t + 1, h => by
    simp only [List.take_succ_cons, lineAt, List.getD_cons_succ]
    exact lineAt_take L m t (Nat.lt_of_succ_lt_succ h)
  | x :: L, 0, t, h => by omega

/-! ### The stable descending sort -/

theorem insertDesc_eq_cons (d : Dispatcher) (acc : List Dispatcher)
    (h : ∀ e ∈ acc, e.start_line < d.start_line) : insertDesc d acc = d :: acc := by
  cases acc with
  | nil => rfl
  | cons e es =>
    have he := h e (List.mem_cons_self e es)
    unfold insertDesc
    rw [if_neg (by omega)]

theorem sortDesc_eq_reverse_aux :
    ∀ (ds acc : List Dispatcher),
      List.Pairwise (fun a b => a.start_line < b.start_line) ds →
      (∀ e ∈ acc, ∀ d ∈ ds, e.start_line < d.start_line) →
      List.foldl (fun acc d => insertDesc d acc) acc ds = ds.reverse ++ acc
  | [], acc, _, _ => by simp
  | d :: ds, acc, hp, hacc => by
    have hp2 := List.pairwise_cons.mp hp
    have hacc2 : ∀ e ∈ d :: acc, ∀ d2 ∈ ds, e.start_line < d2.start_line := by
      intro e he d2 hd2
      rcases List.mem_cons.mp he with rfl | he2
      · exact hp2.1 d2 hd2
      · exact hacc e he2 d2 (List.mem_cons_of_mem d hd2)
    simp only [List.foldl_cons]
    rw [insertDesc_eq_cons d acc (fun e he => hacc e he d (List.mem_cons_self d ds))]
    rw [sortDesc_eq_reverse_aux ds (d :: acc) hp2.2 hacc2]
    simp

theorem sortDesc_eq_reverse (ds : List Dispatcher)
    (h : List.Pairwise (fun a b => a.start_line < b.start_line) ds) :
    sortDesc ds = ds.reverse := by
  unfold sortDesc
  rw [sortDesc_eq_reverse_aux ds [] h (by simp)]
  simp

/-! ### The eliminator equals a single forward pass -/

/-- The facts about a record list that the removal analysis relies on:
pairwise separated spans, in-bounds span ends, and a non-blank line at every
span end (the line whose stripped content is the closing brace). -/
def SpanInv (L : List (List Char)) (D : List Dispatcher) : Prop :=
  List.Pairwise (fun a b => a.end_line < b.start_line) D ∧
  ∀ d ∈ D, d.start_line < d.end_line ∧ d.end_line < L.length ∧
    isBlank (lineAt L d.end_line) = false

theorem adjStartOf_le (L : List (List Char)) (d : Dispatcher) :
    adjStartOf L d ≤ d.start_line + 1 := by
  unfold adjStartOf
  have := extendStart_le L d.start_line
  split <;> omega

theorem adjStartOf_gt (L : List (List Char)) (r : Dispatcher) (e : Nat)
    (hnb : isBlank (lineAt L e) = false) (hlt : e < r.start_line) :
    e + 2 ≤ adjStartOf L r := by
  have h1 := extendStart_gt_of_nonblank L e hnb r.start_line hlt
  unfold adjStartOf
  split <;> omega

theorem fold_remove_eq_filterIdx (L : List (List Char)) :
    ∀ D : List Dispatcher, SpanInv L D →
      List.foldl removeOne L D.reverse = filterIdx (keepLine L D) 0 L
  | [], _ => by
    simp only [List.reverse_nil, List.foldl_nil]
    rw [filterIdx_true (keepLine L []) L 0 (fun t _ => by simp [keepLine])]
  | d :: ds, hinv => by
    obtain ⟨hpw, hmem⟩ := hinv
    obtain ⟨hde, hdn, hdb⟩ := hmem d (List.mem_cons_self d ds)
    have hpw2 := List.pairwise_cons.mp hpw
    have hinv2 : SpanInv L ds := ⟨hpw2.2, fun r hr => hmem r (List.mem_cons_of_mem d hr)⟩
    have hkeep_ds : ∀ t, t ≤ d.end_line → keepLine L ds t = true := by
      intro t ht
      unfold keepLine
      rw [List.all_eq_true]
      intro r hr
      have hsep := adjStartOf_gt L r d.end_line hdb (hpw2.1 r hr)
      have hta : t < adjStartOf L r := by omega
      simp [hta]
    have hM := fold_remove_eq_filterIdx L ds hinv2
    have hlen_take : (L.take (d.end_line + 1)).length = d.end_line + 1 := by
      rw [List.length_take]; omega
    have h1 : filterIdx (keepLine L ds) 0 (L.take (d.end_line + 1))
        = L.take (d.end_line + 1) := by
      apply filterIdx_true
      intro t ht
      rw [hlen_take] at ht
      rw [Nat.zero_add]
      exact hkeep_ds t (by omega)
    have hsplit : filterIdx (keepLine L ds) 0 L
        = L.take (d.end_line + 1) ++
          filterIdx (keepLine L ds) (0 + (d.end_line + 1)) (L.drop (d.end_line + 1)) := by
      rw [filterIdx_split (keepLine L ds) L (d.end_line + 1), hlen_take, h1]
    have hMt : ∀ t, t < d.end_line + 1 →
        lineAt (filterIdx (keepLine L ds) 0 L) t = lineAt L t := by
      intro t ht
      rw [hsplit]
      rw [lineAt_append_left _ _ t (by rw [hlen_take]; omega)]
      exact lineAt_take L (d.end_line + 1) t ht
    have hext : extendStart (filterIdx (keepLine L ds) 0 L) d.start_line
        = extendStart L d.start_line :=
      extendStart_congr L _ d.start_line (fun t ht => hMt t (by omega))
    have hadj : adjStartOf (filterIdx (keepLine L ds) 0 L) d = adjStartOf L d := by
      unfold adjStartOf
      rw [hext]
    have ha_le : adjStartOf L d ≤ d.end_line := by
      have := adjStartOf_le L d
      omega
    have hlen_take_a : (L.take (adjStartOf L d)).length = adjStartOf L d := by
      rw [List.length_take]; omega
    have htakeM : (filterIdx (keepLine L ds) 0 L).take (adjStartOf L d)
        = L.take (adjStartOf L d) := by
      rw [hsplit]
      rw [List.take_append_of_le_length (by rw [hlen_take]; omega)]
      rw [List.take_take, Nat.min_eq_left (by omega)]
    have hdropM : (filterIdx (keepLine L ds) 0 L).drop (d.end_line + 1)
        = filterIdx (keepLine L ds) (0 + (d.end_line + 1)) (L.drop (d.end_line + 1)) := by
      rw [hsplit]
      calc (L.take (d.end_line + 1)
            ++ filterIdx (keepLine L ds) (0 + (d.end_line + 1))
                 (L.drop (d.end_line + 1))).drop (d.end_line + 1)
          = (L.take (d.end_line + 1)
            ++ filterIdx (keepLine L ds) (0 + (d.end_line + 1))
                 (L.drop (d.end_line + 1))).drop (L.take (d.end_line + 1)).length := by
            rw [hlen_take]
        _ = filterIdx (keepLine L ds) (0 + (d.end_line + 1)) (L.drop (d.end_line + 1)) :=
            List.drop_left ..
    have hcons : ∀ i, keepLine L (d :: ds) i
        = ((decide (i < adjStartOf L d) || decide (d.end_line < i)) && keepLine L ds i) := by
      intro i
      simp [keepLine]
    have hRsplit : filterIdx (keepLine L (d :: ds)) 0 L
        = filterIdx (keepLine L (d :: ds)) 0 (L.take (d.end_line + 1))
          ++ filterIdx (keepLine L (d :: ds)) (0 + (d.end_line + 1))
               (L.drop (d.end_line + 1)) := by
      rw [filterIdx_split (keepLine L (d :: ds)) L (d.end_line + 1), hlen_take]
    have hpart2 : filterIdx (keepLine L (d :: ds)) (0 + (d.end_line + 1))
          (L.drop (d.end_line + 1))
        = filterIdx (keepLine L ds) (0 + (d.end_line + 1)) (L.drop (d.end_line + 1)) := by
      apply filterIdx_congr
      intro t ht
      rw [hcons]
      have hgt : d.end_line < d.end_line + 1 + t := by omega
      simp [hgt]
    have hdecomp : L.take (d.end_line + 1)
        = L.take (adjStartOf L d) ++ (L.take (d.end_line + 1)).drop (adjStartOf L d) :=
      take_decomp L (adjStartOf L d) (d.end_line + 1) (by omega)
    have hT1 : filterIdx (keepLine L (d :: ds)) 0 (L.take (adjStartOf L d))
        = L.take (adjStartOf L d) := by
      apply filterIdx_true
      intro t ht
      rw [hlen_take_a] at ht
      rw [Nat.zero_add, hcons]
      have hk := hkeep_ds t (by omega)
      simp [ht, hk]
    have hT2 : filterIdx (keepLine L (d :: ds)) (0 + adjStartOf L d)
        ((L.take (d.end_line + 1)).drop (adjStartOf L d)) = [] := by
      apply filterIdx_false
      intro t ht
      rw [Nat.zero_add, hcons]
      have hna : ¬(adjStartOf L d + t < adjStartOf L d) := by omega
      have hne : ¬(d.end_line < adjStartOf L d + t) := by
        have hlen2 : ((L.take (d.end_line + 1)).drop (adjStartOf L d)).length
            = d.end_line + 1 - adjStartOf L d := by
          rw [List.length_drop, hlen_take]
        rw [hlen2] at ht
        omega
      simp [hna, hne]
    have hpart1 : filterIdx (keepLine L (d :: ds)) 0 (L.take (d.end_line + 1))
        = L.take (adjStartOf L d) := by
      conv_lhs => rw [hdecomp]
      rw [filterIdx_append, hlen_take_a, hT1, hT2, List.append_nil]
    rw [List.reverse_cons, List.foldl_append, hM]
    simp only [List.foldl_cons, List.foldl_nil]
    unfold removeOne delSlice
    rw [hadj]
    rw [max_eq_right (by omega : adjStartOf L d ≤ d.end_line + 1)]
    rw [htakeM, hdropM, hRsplit, hpart1, hpart2]

/-! ### The rewriter touches only lines containing the literal header text -/

theorem isPrefixOf_append_weaken {p q : List Char} :
    ∀ s : List Char, (p ++ q).isPrefixOf s = true → p.isPrefixOf s = true := by
  induction p with
  | nil => intro s _; simp [List.isPrefixOf]
  | cons a p ih =>
    intro s h
    cases s with
    | nil => simp [List.isPrefixOf] at h
    | cons b s =>
      simp only [List.cons_append, List.isPrefixOf, Bool.and_eq_true] at h ⊢
      exact ⟨h.1, ih s h.2⟩

theorem occursIn_append_false {p q : List Char} :
    ∀ s : List Char, occursIn p s = false → occursIn (p ++ q) s = false := by
  intro s
  induction s with
  | nil =>
    intro h
    simp only [occursIn] at h ⊢
    cases p with
    | nil => simp at h
    | cons a p => simp
  | cons c cs ih =>
    intro h
    rcases Bool.or_eq_false_iff.mp (by simpa [occursIn] using h) with ⟨h1, h2⟩
    have g1 : (p ++ q).isPrefixOf (c :: cs) = false := by
      cases hp : (p ++ q).isPrefixOf (c :: cs) with
      | false => rfl
      | true =>
        have hw := isPrefixOf_append_weaken (c :: cs) hp
        rw [hw] at h1
        cases h1
    have g2 := ih h2
    simp [occursIn, g1, g2]

theorem subHeaderAux_no_occ (pat rep : List Char) :
    ∀ (fuel : Nat) (pw : Bool) (s : List Char), occursIn pat s = false →
      subHeaderAux pat rep fuel pw s = s
  | 0, _, s, _ => rfl
  | fuel + 1, pw, s, h => by
    cases s with
    | nil => rfl
    | cons c cs =>
      rcases Bool.or_eq_false_iff.mp (by simpa [occursIn] using h) with ⟨h1, h2⟩
      simp only [subHeaderAux]
      rw [h1]
      simp [subHeaderAux_no_occ pat rep fuel (isWordChar c) cs h2]

theorem renameLine_no_occ :
    ∀ (names : List (List Char)) (line : List Char),
      (∀ c ∈ names, occursIn (headerPat c) line = false) →
      renameLine names line = line
  | [], _, _ => rfl
  | c :: names, line, h => by
    show renameLine names (subHeader (headerPat c) (headerRep c) line) = line
    rw [show subHeader (headerPat c) (headerRep c) line = line from
      subHeaderAux_no_occ _ _ line.length false line (h c (List.mem_cons_self c names))]
    exact renameLine_no_occ names line (fun x hx => h x (List.mem_cons_of_mem c hx))

theorem wordChar_ne_newline {ch : Char} (h : isWordChar ch = true) : ch ≠ '\n' := by
  intro habs
  rw [habs] at h
  exact absurd h (by decide)

theorem headerRep_no_newline (c : List Char) (hc : c.all isWordChar = true) :
    ∀ ch ∈ headerRep c, ch ≠ '\n' := by
  have hlit : ∀ ch ∈ "func (p *Parser) ".data, ch ≠ '\n' := by decide
  intro ch hch
  unfold headerRep at hch
  rcases List.mem_append.mp hch with hm | hm
  · rcases List.mem_append.mp hm with hm2 | hm2
    · exact hlit ch hm2
    · exact wordChar_ne_newline
        (List.all_eq_true.mp hc ch (List.take_subset _ _ hm2))
  · simp only [List.mem_singleton] at hm
    rw [hm]
    decide

theorem subHeaderAux_no_newline (pat rep : List Char)
    (hrep : ∀ ch ∈ rep, ch ≠ '\n') :
    ∀ (fuel : Nat) (pw : Bool) (s : List Char), (∀ ch ∈ s, ch ≠ '\n') →
      ∀ ch ∈ subHeaderAux pat rep fuel pw s, ch ≠ '\n'
  | 0, _, s, hs => hs
  | fuel + 1, pw, s, hs => by
    cases s with
    | nil => intro ch hch; simp [subHeaderAux] at hch
    | cons c cs =>
      simp only [subHeaderAux]
      split
      · intro ch hch
        rcases List.mem_append.mp hch with hm | hm
        · exact hrep ch hm
        · exact subHeaderAux_no_newline pat rep hrep fuel false ((c :: cs).drop pat.length)
            (fun x hx => hs x (List.drop_subset _ _ hx)) ch hm
      · intro ch hch
        rcases List.mem_cons.mp hch with he | hm
        · rw [he]
          exact hs c (List.mem_cons_self c cs)
        · exact subHeaderAux_no_newline pat rep hrep fuel (isWordChar c) cs
            (fun x hx => hs x (List.mem_cons_of_mem c hx)) ch hm

theorem renameLine_no_newline (names : List (List Char))
    (hw : ∀ c ∈ names, c.all isWordChar = true) :
    ∀ line : List Char, (∀ ch ∈ line, ch ≠ '\n') →
      ∀ ch ∈ renameLine names line, ch ≠ '\n' := by
  induction names with
  | nil => intro line hline; exact hline
  | cons c names ih =>
    intro line hline
    show ∀ ch ∈ renameLine names (subHeader (headerPat c) (headerRep c) line), ch ≠ '\n'
    apply ih (fun x hx => hw x (List.mem_cons_of_mem c hx))
    exact subHeaderAux_no_newline (headerPat c) (headerRep c)
      (headerRep_no_newline c (hw c (List.mem_cons_self c names))) line.length false line hline

theorem rename_splitLines (content : List Char) (ds : List Dispatcher)
    (hw : ∀ c ∈ cursorNames ds, c.all isWordChar = true) :
    splitLines (rename_cursor_functions content ds)
      = (splitLines content).map (renameLine (cursorNames ds)) := by
  unfold rename_cursor_functions
  apply splitLines_joinLines
  · intro habs
    exact splitLines_ne_nil content (List.map_eq_nil_iff.mp habs)
  · intro l hl
    rcases List.mem_map.mp hl with ⟨l0, hl0, rfl⟩
    exact renameLine_no_newline (cursorNames ds) hw l0 (splitLines_no_newline content l0 hl0)

theorem lineAt_map (g : List Char → List Char) (M : List (List Char)) :
    ∀ i : Nat, i < M.length → lineAt (M.map g) i = g (lineAt M i) := by
  induction M with
  | nil => intro i h; simp at h
  | cons a l ih =>
    intro i h
    cases i with
    | zero => rfl
    | succ n =>
      simp only [List.map_cons, lineAt, List.getD_cons_succ]
      exact ih n (by simp only [List.length_cons] at h; omega)

/-! ### Facts about the cursor-name set and recorded names -/

theorem dedupAcc_subset (x : List Char) :
    ∀ (seen l : List (List Char)), x ∈ dedupAcc seen l → x ∈ l
  | _, [], h => by simp [dedupAcc] at h
  | seen, y :: l, h => by
    simp only [dedupAcc] at h
    split at h
    · exact List.mem_cons_of_mem y (dedupAcc_subset x seen l h)
    · rcases List.mem_cons.mp h with rfl | h2
      · exact List.mem_cons_self x l
      · exact List.mem_cons_of_mem y (dedupAcc_subset x (y :: seen) l h2)

theorem cursorNames_mem {D : List Dispatcher} {c : List Char} (h : c ∈ cursorNames D) :
    ∃ d ∈ D, c = d.cursor_name := by
  have h2 := dedupAcc_subset c [] _ h
  rcases List.mem_map.mp h2 with ⟨d, hd, hdc⟩
  exact ⟨d, hd, hdc.symm⟩

theorem matchFuncHeader_shape {line : List Char} {h : FuncHeader}
    (hm : matchFuncHeader line = some h) :
    (∃ rest, line = headerStart ++ rest) ∧
    ∃ w, w ≠ [] ∧ w.all isWordChar = true ∧ h.name = "parse".data ++ w := by
  unfold matchFuncHeader at hm
  split at hm
  next htake =>
    refine ⟨⟨line.drop headerStart.length, ?_⟩, ?_⟩
    · conv_lhs => rw [← List.take_append_drop headerStart.length line]
      rw [htake]
    · split at hm
      next => cases hm
      next hwne =>
        split at hm
        next => cases hm
        next c s hd =>
          split at hm
          next hc =>
            split at hm
            next g2 g3 hsp =>
              injection hm with hm2
              refine ⟨(line.drop headerStart.length).takeWhile isWordChar, hwne, ?_, ?_⟩
              · exact List.all_eq_true.mpr (fun x hx => List.mem_takeWhile_imp hx)
              · rw [← hm2]
            next => cases hm
          next => cases hm
  next => cases hm

theorem recOK_cursor_word {L : List (List Char)} {d : Dispatcher} (h : RecOK L d) :
    d.cursor_name.all isWordChar = true := by
  obtain ⟨_, ⟨w, _, hww, hwn⟩⟩ := matchFuncHeader_shape h.header
  have hwn2 : d.name = "parse".data ++ w := hwn
  rw [h.cursorEq]
  show (d.name ++ "Cursor".data).all isWordChar = true
  rw [hwn2]
  rw [List.all_append, List.all_append]
  rw [hww]
  rw [show ("parse".data.all isWordChar) = true from by decide]
  rw [show ("Cursor".data.all isWordChar) = true from by decide]
  rfl

/-- Every line of the eliminated output survives exactly when it lies outside
all deleted ranges; shared frame lemma for the rewriter: a line containing no
occurrence of the literal header text of any recorded delegate is returned
character for character. -/
theorem rename_frame_line (content : List Char) (ds : List Dispatcher) (i : Nat)
    (hw : ∀ c ∈ cursorNames ds, c.all isWordChar = true)
    (hno : ∀ c ∈ cursorNames ds,
      occursIn (headerPat c) (lineAt (splitLines content) i) = false) :
    lineAt (splitLines (rename_cursor_functions content ds)) i
      = lineAt (splitLines content) i := by
  rw [rename_splitLines content ds hw]
  rcases Nat.lt_or_ge i (splitLines content).length with hi | hi
  · rw [lineAt_map _ _ i hi]
    exact renameLine_no_occ (cursorNames ds) _ hno
  · unfold lineAt
    rw [List.getD_eq_default _ _ (by rw [List.length_map]; exact hi)]
    rw [List.getD_eq_default _ _ hi]

/-- The search pattern for a recorded delegate extends the scanner's literal
header prefix: `func (p *Parser) <name>Cursor(` starts with
`func (p *Parser) parse`. -/
theorem headerPat_recorded_extends (L : List (List Char)) (d : Dispatcher) (h : RecOK L d) :
    ∃ tail, headerPat d.cursor_name = headerStart ++ tail := by
  obtain ⟨_, w, _, _, hwn⟩ := matchFuncHeader_shape h.header
  have hwn2 : d.name = "parse".data ++ w := hwn
  refine ⟨w ++ ("Cursor".data ++ ['(']), ?_⟩
  unfold headerPat
  rw [h.cursorEq, hwn2]
  have hlit : "func (p *Parser) ".data ++ "parse".data = headerStart := by decide
  rw [← hlit]
  simp [List.append_assoc]

/-! ### Concrete documents used by the claims -/

/-- A dispatcher directly preceded by a non-blank line. -/
def exNoBlank : List Char :=
  "x\nfunc (p *Parser) parseA() int \x7b\n\treturn p.parseACursor()\n\x7d".data

/-- A dispatcher preceded by three blank lines that reach the top of the file. -/
def exTopBlanks : List Char :=
  "\n\n\nfunc (p *Parser) parseA() int \x7b\n\treturn p.parseACursor()\n\x7d\ny".data

/-- A non-blank line, three blank lines, a dispatcher, and a trailing line. -/
def exThreeBlanks : List Char :=
  "x\n\n\n\nfunc (p *Parser) parseA() int \x7b\n\treturn p.parseACursor()\n\x7d\ny".data

/-- The scanner's record for `exThreeBlanks`. -/
def dThreeBlanks : Dispatcher :=
  ⟨"parseA".data, "parseACursor".data, 4, 6, [], "int".data⟩

/-- A function whose body is the forwarding statement plus a second statement. -/
def exTwoStmt : List Char :=
  "func (p *Parser) parseA() int \x7b\n\treturn p.parseACursor()\n\tp.cleanup()\n\x7d".data

/-- A two-statement body whose first statement is not a forward. -/
def exTwoStmtSwap : List Char :=
  "func (p *Parser) parseA() int \x7b\n\tx := p.prep()\n\treturn p.parseACursor()\n\x7d".data

/-- A dispatcher plus a delegate whose own body calls the delegate itself. -/
def exSelfForward : List Char :=
  "func (p *Parser) parseFoo() int \x7b\n\treturn p.parseFooCursor()\n\x7d\n\nfunc (p *Parser) parseFooCursor() int \x7b\n\treturn p.parseFooCursor()\n\x7d".data

/-- The design document's example: a dispatcher and its delegate with a real body. -/
def exCanonical : List Char :=
  "func (p *Parser) parseExpr(x int) Node \x7b\n\treturn p.parseExprCursor(x)\n\x7d\n\nfunc (p *Parser) parseExprCursor(x int) Node \x7b\n\tdoStuff()\n\treturn result\n\x7d".data

/-- Two dispatchers separated by blank lines, with surrounding code. -/
def exTwoDispatchers : List Char :=
  "a\n\nfunc (p *Parser) parseA() X \x7b\n\treturn p.parseACursor()\n\x7d\n\nfunc (p *Parser) parseB() Y \x7b\n\treturn p.parseBCursor()\n\x7d\nb".data

/-- The scanner's first record for `exTwoDispatchers`. -/
def dA : Dispatcher := ⟨"parseA".data, "parseACursor".data, 2, 4, [], "X".data⟩

/-- A single arbitrary record naming the delegate `parseACursor`. -/
def exRecComment : List Dispatcher :=
  [⟨"parseA".data, "parseACursor".data, 0, 2, [], []⟩]

/-! ### The claims -/

/-- C1: the claim states that `remove_dispatchers` deletes the entire recorded
`startLine..endLine` range for every scanner record, so no dispatcher header
line remains.  The code contradicts this (and its own comment "Remove the
function and any blank lines immediately before it"): when the header is
directly preceded by a non-blank line, the backward-extension loop does not
run, yet `start += 1` is still applied because `start > 0`, so deletion begins
at `startLine + 1` and the header line survives.  On `exNoBlank` the scanner
records the span 1..3 and the eliminator leaves line 1 — the dispatcher
header — in the output unchanged. -/
theorem c1_header_survives_without_preceding_blank :
    find_dispatchers exNoBlank
      = [⟨"parseA".data, "parseACursor".data, 1, 3, [], "int".data⟩] ∧
    remove_dispatchers exNoBlank (find_dispatchers exNoBlank)
      = "x\nfunc (p *Parser) parseA() int \x7b".data ∧
    lineAt (splitLines (remove_dispatchers exNoBlank (find_dispatchers exNoBlank))) 1
      = lineAt (splitLines exNoBlank) 1 :=
  ⟨by decide, by decide, by decide⟩

/-- C2 (counterexample to the claim as stated): when the run of blank lines
before the dispatcher extends to the top of the document, the eliminator keeps
no blank line at all.  On `exTopBlanks` three blank lines precede the recorded
span 3..5, yet the output is the single non-blank line `y`. -/
theorem c2_counterexample_top_of_file_blanks :
    find_dispatchers exTopBlanks
      = [⟨"parseA".data, "parseACursor".data, 3, 5, [], "int".data⟩] ∧
    remove_dispatchers exTopBlanks (find_dispatchers exTopBlanks) = "y".data ∧
    (splitLines (remove_dispatchers exTopBlanks (find_dispatchers exTopBlanks))).length
      = 1 ∧
    isBlank (lineAt (splitLines
      (remove_dispatchers exTopBlanks (find_dispatchers exTopBlanks))) 0) = false :=
  ⟨by decide, by decide, by decide, by decide⟩

/-- C2 (amended): if the blank run `b .. start_line - 1` before the record is
itself preceded by a non-blank line (`b > 0` with line `b - 1` non-blank),
the eliminator deletes lines `b + 1 .. end_line` — keeping exactly the single
blank line at index `b` before the deleted region, so any run of blank lines
immediately before the dispatcher collapses to exactly one. -/
theorem c2_blank_run_collapsed_to_single_blank
    (content : List Char) (d : Dispatcher) (b : Nat)
    (hb : 0 < b) (hbs : b < d.start_line) (hse : d.start_line ≤ d.end_line)
    (hrun : ∀ t, t < d.start_line → b ≤ t →
      isBlank (lineAt (splitLines content) t) = true)
    (hnb : isBlank (lineAt (splitLines content) (b - 1)) = false) :
    remove_dispatchers content [d]
      = joinLines ((splitLines content).take (b + 1)
          ++ (splitLines content).drop (d.end_line + 1)) := by
  unfold remove_dispatchers
  rw [show sortDesc [d] = [d] from rfl]
  simp only [List.foldl_cons, List.foldl_nil]
  unfold removeOne delSlice adjStartOf
  have hext : extendStart (splitLines content) d.start_line = b :=
    extendStart_run (splitLines content) b (Or.inr hnb) d.start_line (by omega)
      (fun t ht hbt => hrun t ht hbt)
  rw [hext]
  rw [if_pos hb]
  rw [max_eq_right (by omega : b + 1 ≤ d.end_line + 1)]

/-- C2 (witness): on `exThreeBlanks` the three blank lines 1..3 before the
recorded span 4..6 collapse to the single blank line at index 1: the output is
the first two lines (`x` and one blank) followed by what came after the span. -/
theorem c2_blank_run_witness :
    (0 : Nat) < 1 ∧ isBlank (lineAt (splitLines exThreeBlanks) 0) = false ∧
    remove_dispatchers exThreeBlanks [dThreeBlanks]
      = joinLines ((splitLines exThreeBlanks).take 2
          ++ (splitLines exThreeBlanks).drop 7) :=
  ⟨by decide, by decide,
    c2_blank_run_collapsed_to_single_blank exThreeBlanks dThreeBlanks 1 (by decide)
      (by decide) (by decide) (by decide) (by decide)⟩

/-- C3 (counterexample to the claim as stated): a function whose body holds
two statements is recorded as a dispatcher when the first statement matches
the forwarding pattern — the scanner only inspects the first non-blank body
line and never checks that it is the only statement. -/
theorem c3_counterexample_trailing_statement :
    find_dispatchers exTwoStmt
      = [⟨"parseA".data, "parseACursor".data, 0, 3, [], "int".data⟩] := by decide

/-- C3 (amended): a function whose first non-blank body line does not match
the forwarding pattern is never recorded, regardless of whether a later body
line textually matches it. -/
theorem c3_not_recorded_when_first_body_line_no_forward
    (content : List Char) (i : Nat)
    (h : matchReturnCursor (lineAt (splitLines content)
      (skipBlanks (splitLines content) (i + 1))) = none) :
    ∀ d ∈ find_dispatchers content, d.start_line ≠ i := by
  intro d hd he
  have hok := (findFrom_sound (splitLines content)
    ((splitLines content).length + 1) 0 d hd).2
  have hr := hok.retMatch
  rw [he] at hr
  rw [h] at hr
  cases hr

/-- C3 (witness): on `exTwoStmtSwap` the first body statement is an
assignment, the second matches the forwarding pattern, and no record starts at
the header line 0 (indeed the scanner finds nothing). -/
theorem c3_not_recorded_witness :
    matchReturnCursor (lineAt (splitLines exTwoStmtSwap)
      (skipBlanks (splitLines exTwoStmtSwap) (0 + 1))) = none ∧
    ∀ d ∈ find_dispatchers exTwoStmtSwap, d.start_line ≠ 0 :=
  ⟨by decide,
    c3_not_recorded_when_first_body_line_no_forward exTwoStmtSwap 0 (by decide)⟩

/-- C4 (counterexample to the claim as stated): on `exSelfForward` the
delegate's own body forwards to the delegate itself.  After
eliminate-then-rename the renamed delegate declaration `parseFoo` sits above
an untouched call `p.parseFooCursor(`, which re-forms the dispatcher pattern:
the re-scan finds one record, and a second pipeline run changes the text. -/
theorem c4_counterexample_self_forwarding_delegate :
    find_dispatchers (process_content exSelfForward)
      = [⟨"parseFoo".data, "parseFooCursor".data, 1, 3, [], "int".data⟩] ∧
    process_content (process_content exSelfForward) ≠ process_content exSelfForward :=
  ⟨by decide, by decide⟩

/-- C4 (amended): on the design document's example — a dispatcher whose
delegate has a real, non-forwarding body — re-scanning the
eliminate-then-rename output produces zero records and a second run of the
whole pipeline leaves the text unchanged. -/
theorem c4_pipeline_idempotent_on_canonical_example :
    find_dispatchers (process_content exCanonical) = [] ∧
    process_content (process_content exCanonical) = process_content exCanonical :=
  ⟨by decide, by decide⟩

/-- C5 (counterexample to the claim as stated): the rewriter's pattern is not
anchored to the line start and requires neither the parameter-list close nor
the opening brace, so a comment containing the literal declaration text is
rewritten, contradicting "comments are left character-for-character
untouched". -/
theorem c5_counterexample_comment_rewritten :
    rename_cursor_functions "// func (p *Parser) parseACursor(x)".data exRecComment
      = "// func (p *Parser) parseA(x)".data ∧
    "// func (p *Parser) parseA(x)".data ≠ "// func (p *Parser) parseACursor(x)".data :=
  ⟨by decide, by decide⟩

/-- C5 (amended): the rewriter rewrites only word-boundary occurrences of the
literal text `func (p *Parser) <delegate>(` anywhere within a line; any line
containing no such occurrence for any recorded delegate name (word-character
names, as all scanner-produced ones are) is left character for character
untouched. -/
theorem c5_rename_leaves_patternfree_lines_unchanged
    (content : List Char) (ds : List Dispatcher) (i : Nat)
    (hw : ∀ c ∈ cursorNames ds, c.all isWordChar = true)
    (hno : ∀ c ∈ cursorNames ds,
      occursIn (headerPat c) (lineAt (splitLines content) i) = false) :
    lineAt (splitLines (rename_cursor_functions content ds)) i
      = lineAt (splitLines content) i :=
  rename_frame_line content ds i hw hno

/-- C5 (witness): a line with no occurrence of any recorded delegate's header
text is unchanged by the rewriter. -/
theorem c5_rename_frame_witness :
    (∀ c ∈ cursorNames exRecComment, c.all isWordChar = true) ∧
    (∀ c ∈ cursorNames exRecComment,
      occursIn (headerPat c) (lineAt (splitLines "x := p.parse(y)".data) 0) = false) ∧
    lineAt (splitLines
      (rename_cursor_functions "x := p.parse(y)".data exRecComment)) 0
      = lineAt (splitLines "x := p.parse(y)".data) 0 :=
  ⟨by decide, by decide,
    c5_rename_leaves_patternfree_lines_unchanged "x := p.parse(y)".data exRecComment 0
      (by decide) (by decide)⟩

/-- C6: for the scanner's records, processing in descending `start_line`
order with all deletions computed from the original numbering equals one
forward pass that copies every line lying outside all (blank-extended,
code-adjusted) spans: `remove_dispatchers` equals `spec_forward_removal`. -/
theorem c6_remove_equals_single_forward_pass
    (content : List Char) (D : List Dispatcher)
    (hD : D = find_dispatchers content) (h2 : 2 ≤ D.length) :
    remove_dispatchers content D = spec_forward_removal content D := by
  subst hD
  have hpw : List.Pairwise (fun a b => a.end_line < b.start_line)
      (find_dispatchers content) :=
    findFrom_pairwise (splitLines content) ((splitLines content).length + 1) 0
  have hmem : ∀ d ∈ find_dispatchers content, d.start_line < d.end_line ∧
      d.end_line < (splitLines content).length ∧
      isBlank (lineAt (splitLines content) d.end_line) = false := by
    intro d hd
    have hok := (findFrom_sound (splitLines content)
      ((splitLines content).length + 1) 0 d hd).2
    refine ⟨hok.startLtEnd, hok.endBound, ?_⟩
    apply isBlank_false_of_strip_brace
    rw [hok.endEq]
    exact findBrace_strip _ _ (hok.endEq ▸ hok.endBound)
  have hasc : List.Pairwise (fun a b => a.start_line < b.start_line)
      (find_dispatchers content) :=
    hpw.imp_of_mem (fun {a b} ha hb hab => by
      have := (hmem a ha).1
      omega)
  unfold remove_dispatchers spec_forward_removal
  rw [sortDesc_eq_reverse _ hasc]
  rw [fold_remove_eq_filterIdx (splitLines content) (find_dispatchers content)
    ⟨hpw, hmem⟩]

/-- C6 (witness): on `exTwoDispatchers` the scanner finds two records and the
eliminator's output coincides with the single forward pass. -/
theorem c6_forward_pass_witness :
    2 ≤ (find_dispatchers exTwoDispatchers).length ∧
    remove_dispatchers exTwoDispatchers (find_dispatchers exTwoDispatchers)
      = spec_forward_removal exTwoDispatchers (find_dispatchers exTwoDispatchers) :=
  ⟨by decide,
    c6_remove_equals_single_forward_pass exTwoDispatchers _ rfl (by decide)⟩

/-- C7: the scanner's records are pairwise separated (each span ends strictly
before the next begins, hence `startLine` is strictly ascending) and every
record satisfies `start_line < end_line`. -/
theorem c7_records_ascending_disjoint (content : List Char) :
    List.Pairwise (fun a b => a.end_line < b.start_line) (find_dispatchers content) ∧
    List.Pairwise (fun a b => a.start_line < b.start_line) (find_dispatchers content) ∧
    ∀ d ∈ find_dispatchers content, d.start_line < d.end_line := by
  have hpw := findFrom_pairwise (splitLines content) ((splitLines content).length + 1) 0
  have hlt : ∀ d ∈ find_dispatchers content, d.start_line < d.end_line := fun d hd =>
    ((findFrom_sound (splitLines content)
      ((splitLines content).length + 1) 0 d hd).2).startLtEnd
  refine ⟨hpw, ?_, hlt⟩
  exact hpw.imp_of_mem (fun {a b} ha hb hab => by
    have := hlt a ha
    omega)

/-- C7 (witness): instantiated on the two-dispatcher document. -/
theorem c7_records_witness :
    List.Pairwise (fun a b => a.end_line < b.start_line)
      (find_dispatchers exTwoDispatchers) ∧
    List.Pairwise (fun a b => a.start_line < b.start_line)
      (find_dispatchers exTwoDispatchers) ∧
    ∀ d ∈ find_dispatchers exTwoDispatchers, d.start_line < d.end_line :=
  c7_records_ascending_disjoint exTwoDispatchers

/-- C8: every record returned by the scanner satisfies
`cursor_name = name ++ "Cursor"` exactly; a candidate lacking this suffix
relationship is never recorded. -/
theorem c8_delegate_name_exact_suffix (content : List Char) (d : Dispatcher)
    (h : d ∈ find_dispatchers content) :
    d.cursor_name = d.name ++ "Cursor".data :=
  ((findFrom_sound (splitLines content)
    ((splitLines content).length + 1) 0 d h).2).cursorEq

/-- C8 (witness): the first record of the two-dispatcher document. -/
theorem c8_delegate_name_witness :
    dA ∈ find_dispatchers exTwoDispatchers ∧
    dA.cursor_name = dA.name ++ "Cursor".data :=
  ⟨by decide, c8_delegate_name_exact_suffix exTwoDispatchers dA (by decide)⟩

/-- C9: the scanner is a total function (it is defined for every document);
every index it stores is within the line count, and a document none of whose
lines matches the header pattern yields the empty record list. -/
theorem c9_scanner_inbounds_and_empty_on_nonconforming (content : List Char) :
    (∀ d ∈ find_dispatchers content,
      d.start_line < (splitLines content).length ∧
      d.end_line < (splitLines content).length) ∧
    ((∀ l ∈ splitLines content, matchFuncHeader l = none) →
      find_dispatchers content = []) := by
  constructor
  · intro d hd
    have hok := (findFrom_sound (splitLines content)
      ((splitLines content).length + 1) 0 d hd).2
    exact ⟨hok.startBound, hok.endBound⟩
  · intro hnone
    exact findFrom_none (splitLines content) hnone ((splitLines content).length + 1) 0

/-- C9 (witness): a document of ordinary text has no header-matching line and
the scanner returns the empty list. -/
theorem c9_scanner_witness :
    (∀ l ∈ splitLines "hello\nworld".data, matchFuncHeader l = none) ∧
    find_dispatchers "hello\nworld".data = [] :=
  ⟨by decide,
    (c9_scanner_inbounds_and_empty_on_nonconforming "hello\nworld".data).2 (by decide)⟩

/-- C10: every recorded dispatcher's header line begins with the literal
`func (p *Parser) parse` and its name is `parse` followed by a nonempty run
of word characters; and the rewriter built from this document's records
leaves every line that does not contain the literal text
`func (p *Parser) parse` unchanged — so a function of the same shape with any
other name prefix or receiver is neither detected nor renamed. -/
theorem c10_scanner_and_rename_scope (content : List Char) (d : Dispatcher)
    (h : d ∈ find_dispatchers content) :
    (∃ rest, lineAt (splitLines content) d.start_line = headerStart ++ rest) ∧
    (∃ w, w ≠ [] ∧ w.all isWordChar = true ∧ d.name = "parse".data ++ w) ∧
    (∀ content2 i, occursIn headerStart (lineAt (splitLines content2) i) = false →
      lineAt (splitLines (rename_cursor_functions content2
        (find_dispatchers content))) i = lineAt (splitLines content2) i) := by
  have hok := (findFrom_sound (splitLines content)
    ((splitLines content).length + 1) 0 d h).2
  obtain ⟨hpfx, w, hw0, hww, hwn⟩ := matchFuncHeader_shape hok.header
  have hword : ∀ c ∈ cursorNames (find_dispatchers content),
      c.all isWordChar = true := by
    intro c hc
    obtain ⟨d2, hd2, rfl⟩ := cursorNames_mem hc
    exact recOK_cursor_word ((findFrom_sound (splitLines content)
      ((splitLines content).length + 1) 0 d2 hd2).2)
  refine ⟨hpfx, ⟨w, hw0, hww, hwn⟩, ?_⟩
  intro content2 i hno
  apply rename_frame_line content2 (find_dispatchers content) i hword
  intro c hc
  obtain ⟨d2, hd2, rfl⟩ := cursorNames_mem hc
  obtain ⟨tail, htail⟩ := headerPat_recorded_extends (splitLines content) d2
    ((findFrom_sound (splitLines content)
      ((splitLines content).length + 1) 0 d2 hd2).2)
  rw [htail]
  exact occursIn_append_false _ hno

/-- C10 (witness): the first record of the two-dispatcher document starts
with the fixed receiver-and-prefix text, and a line without that text is
unchanged by the rewriter built from the document's records. -/
theorem c10_scope_witness :
    dA ∈ find_dispatchers exTwoDispatchers ∧
    (∃ rest, lineAt (splitLines exTwoDispatchers) dA.start_line
      = headerStart ++ rest) ∧
    lineAt (splitLines (rename_cursor_functions "x := 1".data
      (find_dispatchers exTwoDispatchers))) 0 = lineAt (splitLines "x := 1".data) 0 := by
  refine ⟨by decide, ?_, ?_⟩
  · exact (c10_scanner_and_rename_scope exTwoDispatchers dA (by decide)).1
  · exact (c10_scanner_and_rename_scope exTwoDispatchers dA (by decide)).2.2
      "x := 1".data 0 (by decide)
